import Mathlib

/-!
Verification development for the katpool-app mining pool server.

Each section embeds one component of the source as executable Lean
definitions and proves the specification claims about it:

* Treasury maturity handler (src/treasury/index.ts, maturityHandler)
* Reward allocator (src/pool/index.ts, Pool.allocate / Pool.revenuize)
* Shares manager (stratum sharesManager: addShare, updateVarDiff,
  getSharesSinceLastAllocation)
* Template cache and job registry (stratum templates: register)
* Persistence gateway (pool database: addBalance)

Machine integers of the source are bigint or exact rationals here: amounts,
targets and DAA scores are Nat (bigint in the source, never negative in the
modelled paths), difficulties are Rat (JS double in the source), balances are
Int. Fallible or external calls (RPC, PoW library) enter as oracle parameters.
-/

/-! ### Treasury maturity handler (src/treasury/index.ts lines 312-346)

The handler receives a maturity event from the UTXO processor.  The RPC
timestamp estimate for the event's DAA score enters as the parameter
`estTimestamp`; `startTime` is the pool start wall clock; `feeBps` is the
configured fee percentage times 100 (the source computes
`BigInt(this.fee * 100)`). -/

structure MaturityEvent where
  incoming : Bool
  isCoinbase : Bool
  value : Nat
  blockDaaScore : Nat
deriving DecidableEq

structure CoinbaseEmit where
  minerReward : Nat
  poolFee : Nat
  daaScore : Nat
deriving DecidableEq

def maturityHandler (startTime estTimestamp feeBps : Nat) (e : MaturityEvent) :
    Option CoinbaseEmit :=
  if e.incoming then
    if e.isCoinbase then
      if estTimestamp < startTime then none
      else
        let poolFee := e.value * feeBps / 10000
        some ⟨e.value - poolFee, poolFee, e.blockDaaScore⟩
    else none
  else none

/-! ### Reward allocator (src/pool/index.ts lines 89-189)

`Pool.allocate` aggregates the drained shares by address, then credits each
address `(workA * 100 * minerReward) / (totalWork * 100)` with bigint
division, plus a NACHO rebate share of `poolFee * rebateBps / 10000`, and
finally credits the untouched `poolFee` to the synthetic pool account via
`revenuize`.  Difficulties are Nat here because the source converts them with
`BigInt(work.difficulty * 100)`, which requires integral values. -/

structure AllocShare where
  address : String
  minerId : String
  difficulty : Nat
deriving DecidableEq

structure WorkEntry where
  address : String
  minerId : String
  difficulty : Nat
deriving DecidableEq

structure BalanceCredit where
  minerId : String
  address : String
  amount : Nat
  rebate : Nat
deriving DecidableEq

/-- One step of the aggregation loop: `works.has(address)` keeps the
first-seen minerId and adds the difficulty, otherwise a new entry is
appended (JS `Map` preserves insertion order). -/
def addWork (ws : List WorkEntry) (address minerId : String) (difficulty : Nat) :
    List WorkEntry :=
  match ws with
  | [] => [⟨address, minerId, difficulty⟩]
  | w :: rest =>
    if w.address = address then
      ⟨w.address, w.minerId, w.difficulty + difficulty⟩ :: rest
    else
      w :: addWork rest address minerId difficulty

def aggregateWorks (shares : List AllocShare) : List WorkEntry :=
  shares.foldl (fun ws s => addWork ws s.address s.minerId s.difficulty) []

def totalWork (shares : List AllocShare) : Nat :=
  (shares.map (·.difficulty)).sum

/-- `Pool.allocate` after the shares have been fetched: returns `none` on the
`totalWork === 0` early return, otherwise the per-address credits (in works
order) and the optional pool-account credit made by `revenuize` (the full
`poolFee`, credited whenever `works.size > 0 && poolFee > 0`). -/
def allocate (minerReward poolFee rebateBps : Nat) (shares : List AllocShare) :
    Option (List BalanceCredit × Option Nat) :=
  let works := aggregateWorks shares
  let T := totalWork shares
  if T = 0 then none
  else
    let scaledTotal := T * 100
    let rebate := poolFee * rebateBps / 10000
    let credits := works.map (fun w =>
      { minerId := w.minerId
        address := w.address
        amount := w.difficulty * 100 * minerReward / scaledTotal
        rebate := w.difficulty * 100 * rebate / scaledTotal })
    let poolCredit := if works.length ≠ 0 ∧ poolFee ≠ 0 then some poolFee else none
    some (credits, poolCredit)

/-- Sum of the works table difficulties. -/
def worksSum (ws : List WorkEntry) : Nat :=
  (ws.map (·.difficulty)).sum

theorem worksSum_addWork (ws : List WorkEntry) (a m : String) (d : Nat) :
    worksSum (addWork ws a m d) = worksSum ws + d := by
  induction ws with
  | nil => simp [worksSum, addWork]
  | cons w rest ih =>
    by_cases h : w.address = a
    · simp [worksSum, addWork, h, List.map_cons]
      ring
    · simp [worksSum, addWork, h, List.map_cons] at ih ⊢
      omega

theorem worksSum_foldl (shares : List AllocShare) (ws : List WorkEntry) :
    worksSum (shares.foldl (fun ws s => addWork ws s.address s.minerId s.difficulty) ws)
      = worksSum ws + totalWork shares := by
  induction shares generalizing ws with
  | nil => simp [totalWork]
  | cons s rest ih =>
    simp only [List.foldl_cons, totalWork, List.map_cons, List.sum_cons]
    rw [ih, worksSum_addWork]
    simp [totalWork]
    ring

theorem worksSum_aggregate (shares : List AllocShare) :
    worksSum (aggregateWorks shares) = totalWork shares := by
  unfold aggregateWorks
  rw [worksSum_foldl]
  simp [worksSum]

theorem nat_add_div_le (a b c : Nat) : a / c + b / c ≤ (a + b) / c := by
  rcases Nat.eq_zero_or_pos c with hc | hc
  · simp [hc]
  · rw [Nat.le_div_iff_mul_le hc, Nat.add_mul]
    exact Nat.add_le_add (Nat.div_mul_le_self a c) (Nat.div_mul_le_self b c)

theorem list_sum_div_le (l : List Nat) (c : Nat) :
    (l.map (· / c)).sum ≤ l.sum / c := by
  induction l with
  | nil => simp
  | cons a rest ih =>
    simp only [List.map_cons, List.sum_cons]
    calc a / c + (rest.map (· / c)).sum ≤ a / c + rest.sum / c :=
          Nat.add_le_add_left ih _
      _ ≤ (a + rest.sum) / c := nat_add_div_le _ _ _

/-- C3: on a coinbase maturity event for an incoming coinbase UTXO, the
Treasury ignores the event when the estimated block timestamp is earlier
than pool start, and otherwise emits a coinbase event with pool fee
`reward * feeBps / 10000` (exact bigint division) and miner reward
`reward - poolFee`. -/
theorem treasury_maturity_fee_split (startTime estTimestamp feeBps : Nat)
    (e : MaturityEvent) (hin : e.incoming = true) (hcb : e.isCoinbase = true) :
    (estTimestamp < startTime →
      maturityHandler startTime estTimestamp feeBps e = none) ∧
    (startTime ≤ estTimestamp →
      maturityHandler startTime estTimestamp feeBps e =
        some ⟨e.value - e.value * feeBps / 10000, e.value * feeBps / 10000,
              e.blockDaaScore⟩) := by
  constructor
  · intro h
    simp [maturityHandler, hin, hcb, h]
  · intro h
    simp [maturityHandler, hin, hcb, Nat.not_lt.mpr h]

theorem treasury_maturity_fee_split_witness :
    ((⟨true, true, 1000000000, 5⟩ : MaturityEvent).incoming = true) ∧
    ((⟨true, true, 1000000000, 5⟩ : MaturityEvent).isCoinbase = true) ∧
    ((100 < 200 →
        maturityHandler 200 100 200 ⟨true, true, 1000000000, 5⟩ = none) ∧
     (200 ≤ 300 →
        maturityHandler 200 300 200 ⟨true, true, 1000000000, 5⟩ =
          some ⟨1000000000 - 1000000000 * 200 / 10000,
                1000000000 * 200 / 10000, 5⟩)) :=
  ⟨rfl, rfl,
    (treasury_maturity_fee_split 200 100 200 ⟨true, true, 1000000000, 5⟩ rfl rfl).1,
    (treasury_maturity_fee_split 200 300 200 ⟨true, true, 1000000000, 5⟩ rfl rfl).2⟩

/-- C2: during allocation of one coinbase event, each address with aggregated
work `workA` is credited `workA * 100 * minerReward / (totalWork * 100)` by
exact integer division, and the credited amounts sum to at most `minerReward`
whenever the share aggregation has `totalWork > 0`. -/
theorem allocate_proportional_conservation (R F reb : Nat)
    (shares : List AllocShare) (h : totalWork shares ≠ 0) :
    allocate R F reb shares =
      some ((aggregateWorks shares).map (fun w =>
          { minerId := w.minerId
            address := w.address
            amount := w.difficulty * 100 * R / (totalWork shares * 100)
            rebate := w.difficulty * 100 * (F * reb / 10000) /
              (totalWork shares * 100) }),
        if (aggregateWorks shares).length ≠ 0 ∧ F ≠ 0 then some F else none) ∧
    (((aggregateWorks shares).map (fun w =>
        w.difficulty * 100 * R / (totalWork shares * 100))).sum ≤ R) := by
  constructor
  · simp only [allocate, h, if_false, reduceIte]
  · have hrw : (aggregateWorks shares).map (fun w =>
        w.difficulty * 100 * R / (totalWork shares * 100)) =
        ((aggregateWorks shares).map (fun w => w.difficulty * (100 * R))).map
          (· / (totalWork shares * 100)) := by
      rw [List.map_map]
      refine List.map_congr_left (fun w _ => ?_)
      simp [Function.comp, Nat.mul_assoc]
    rw [hrw]
    calc (((aggregateWorks shares).map (fun w => w.difficulty * (100 * R))).map
            (· / (totalWork shares * 100))).sum
        ≤ ((aggregateWorks shares).map (fun w => w.difficulty * (100 * R))).sum /
            (totalWork shares * 100) := list_sum_div_le _ _
      _ = R := by
          rw [List.sum_map_mul_right]
          have : ((aggregateWorks shares).map (fun w => w.difficulty)).sum =
              totalWork shares := worksSum_aggregate shares
          rw [this]
          rw [show totalWork shares * (100 * R) = totalWork shares * 100 * R by ring]
          exact Nat.mul_div_cancel_left R
            (Nat.mul_pos (Nat.pos_of_ne_zero h) (by norm_num))

theorem allocate_proportional_conservation_witness :
    totalWork [⟨"addrA", "rig1", 3⟩, ⟨"addrB", "rig2", 1⟩] ≠ 0 ∧
    (allocate 97 5 33 [⟨"addrA", "rig1", 3⟩, ⟨"addrB", "rig2", 1⟩] =
      some ((aggregateWorks [⟨"addrA", "rig1", 3⟩, ⟨"addrB", "rig2", 1⟩]).map
          (fun w =>
          { minerId := w.minerId
            address := w.address
            amount := w.difficulty * 100 * 97 /
              (totalWork [⟨"addrA", "rig1", 3⟩, ⟨"addrB", "rig2", 1⟩] * 100)
            rebate := w.difficulty * 100 * (5 * 33 / 10000) /
              (totalWork [⟨"addrA", "rig1", 3⟩, ⟨"addrB", "rig2", 1⟩] * 100) }),
        if (aggregateWorks [⟨"addrA", "rig1", 3⟩, ⟨"addrB", "rig2", 1⟩]).length ≠ 0
            ∧ (5 : Nat) ≠ 0 then some 5 else none) ∧
      (((aggregateWorks [⟨"addrA", "rig1", 3⟩, ⟨"addrB", "rig2", 1⟩]).map (fun w =>
          w.difficulty * 100 * 97 /
            (totalWork [⟨"addrA", "rig1", 3⟩, ⟨"addrB", "rig2", 1⟩] * 100))).sum
        ≤ 97)) :=
  ⟨by decide,
   allocate_proportional_conservation 97 5 33
     [⟨"addrA", "rig1", 3⟩, ⟨"addrB", "rig2", 1⟩] (by decide)⟩

/-! ### The literal allocation scenario of the spec (C7) -/

def scenarioShares : List AllocShare :=
  [⟨"kaspa:addrA", "rigA", 300⟩, ⟨"kaspa:addrB", "rigB", 100⟩]

/-- C7 counterexample: with reward 1_000_000_000 and 2% fee the credits are
`A = 735_000_000`, `B = 245_000_000` as claimed, but under the source's rebate
formula `rebate = poolFee * BigInt(nachoRebate * 100) / 10000n` at the
configured 0.33% rate (rebateBps = 33) the rebate split is `A = 49_500`,
`B = 16_500`, not `A = 495_000`, `B = 165_000`; and `revenuize` credits the
pool account the full `poolFee = 20_000_000`, never `20_000_000` minus the
rebate total.  Even at rebateBps = 330, the only rate reproducing the claimed
split, the pool credit stays the full fee. -/
theorem allocate_scenario_counterexample :
    allocate 980000000 20000000 33 scenarioShares =
      some ([⟨"rigA", "kaspa:addrA", 735000000, 49500⟩,
             ⟨"rigB", "kaspa:addrB", 245000000, 16500⟩], some 20000000) ∧
    allocate 980000000 20000000 330 scenarioShares =
      some ([⟨"rigA", "kaspa:addrA", 735000000, 495000⟩,
             ⟨"rigB", "kaspa:addrB", 245000000, 165000⟩], some 20000000) ∧
    (49500 : Nat) ≠ 495000 ∧
    some (20000000 : Nat) ≠ some (20000000 - (495000 + 165000)) := by
  refine ⟨by decide, by decide, by decide, by decide⟩

/-- C7 amended: for the literal scenario (reward 1_000_000_000 sompi, 2% fee,
aggregate difficulty A:300, B:100) the credits are A = 735_000_000 and
B = 245_000_000; at the configured 0.33% rebate rate (rebateBps = 33) the
rebate total 66_000 splits A = 49_500 and B = 16_500; and the pool account is
credited the full pool fee 20_000_000 (the rebate is not deducted from it). -/
theorem allocate_scenario_amended :
    allocate 980000000 20000000 33 scenarioShares =
      some ([⟨"rigA", "kaspa:addrA", 735000000, 49500⟩,
             ⟨"rigB", "kaspa:addrB", 245000000, 16500⟩], some 20000000) ∧
    20000000 * 33 / 10000 = 66000 ∧ (49500 : Nat) + 16500 = 66000 := by
  refine ⟨by decide, by decide, by decide⟩

/-! ### Shares manager (stratum sharesManager, addShare lines 131-289)

The PoW state of a cached template is embedded by its block target and its
nonce-to-target function (the wasm library's `PoW.checkWork(nonce)` returns
`[target <= powState.target, target]`).  `calculateTarget` (wasm) maps a
difficulty to the share target and stays an oracle parameter.  Timestamps are
epoch milliseconds. -/

structure PoWState where
  blockTarget : Nat
  powTarget : Nat → Nat

def checkWork (s : PoWState) (nonce : Nat) : Bool × Nat :=
  (decide (s.powTarget nonce ≤ s.blockTarget), s.powTarget nonce)

structure RecentShare where
  timestamp : Nat
  difficulty : Rat
  nonce : Nat
deriving DecidableEq

structure WorkerStats where
  blocksFound : Nat
  sharesFound : Nat
  staleShares : Nat
  invalidShares : Nat
  workerName : String
  startTime : Nat
  lastShare : Nat
  varDiffStartTime : Nat
  varDiffSharesFound : Nat
  varDiffWindow : Nat
  minDiff : Rat
  recentShares : List RecentShare
  hashrate : Rat
  varDiffEnabled : Bool
deriving DecidableEq

structure Contribution where
  address : String
  difficulty : Rat
  timestamp : Nat
  minerId : String
  jobId : String
  daaScore : Nat
deriving DecidableEq

inductive ShareOutcome where
  | duplicate
  | stale
  | invalid
  | valid (isBlock : Bool)
deriving DecidableEq

structure AddShareResult where
  stats : WorkerStats
  shareWindow : List Contribution
  outcome : ShareOutcome
  submitCalled : Bool
deriving DecidableEq

def WINDOW_SIZE : Nat := 10 * 60 * 1000

/-- The while loop pruning the recent-share deque to the 10 minute window:
shift from the front while `now - front.timestamp > WINDOW_SIZE` (Nat
subtraction truncates at 0 exactly where the JS difference is negative and
the comparison fails too). -/
def pruneRecent (now : Nat) : List RecentShare → List RecentShare
  | [] => []
  | s :: rest =>
    if WINDOW_SIZE < now - s.timestamp then pruneRecent now rest else s :: rest

/-- `SharesManager.addShare` for one worker.  `getPoW` is the template cache
lookup, `jobDaa` the job-id to DAA-score mapping (`Jobs.getDaaScoreFromJobId`),
`submitOk` the upstream node's verdict when a block is submitted.  Returns the
updated worker stats, the share window, the classification, and whether
`templates.submit` was invoked. -/
def addShare (getPoW : String → Option PoWState) (calculateTarget : Rat → Nat)
    (jobDaa : String → Nat) (now : Nat) (submitOk : Bool)
    (stats : WorkerStats) (shareWindow : List Contribution)
    (minerId address hash : String) (difficulty : Rat) (nonce : Nat)
    (id : String) : AddShareResult :=
  if stats.recentShares.any (fun s => s.nonce = nonce) then
    ⟨stats, shareWindow, .duplicate, false⟩
  else
    let currentDifficulty := if stats.minDiff = 0 then difficulty else stats.minDiff
    match getPoW hash with
    | none =>
      ⟨{ stats with staleShares := stats.staleShares + 1 }, shareWindow,
        .stale, false⟩
    | some state =>
      let target := (checkWork state nonce).2
      let isBlock := (checkWork state nonce).1
      if calculateTarget currentDifficulty < target then
        ⟨{ stats with invalidShares := stats.invalidShares + 1 }, shareWindow,
          .invalid, false⟩
      else
        let share : Contribution :=
          ⟨address, difficulty, now, minerId, id, jobDaa id⟩
        ⟨{ stats with
            blocksFound := if isBlock && submitOk then stats.blocksFound + 1
              else stats.blocksFound
            sharesFound := stats.sharesFound + 1
            varDiffSharesFound := stats.varDiffSharesFound + 1
            lastShare := now
            minDiff := currentDifficulty
            recentShares :=
              pruneRecent now
                (stats.recentShares ++ [⟨now, currentDifficulty, nonce⟩]) },
          shareWindow ++ [share], .valid isBlock, isBlock⟩

theorem self_mem_pruneRecent (now : Nat) (l : List RecentShare) (s : RecentShare)
    (h : now - s.timestamp ≤ WINDOW_SIZE) : s ∈ pruneRecent now (l ++ [s]) := by
  induction l with
  | nil => simp [pruneRecent, Nat.not_lt.mpr h]
  | cons a rest ih =>
    simp only [List.cons_append, pruneRecent]
    by_cases hc : WINDOW_SIZE < now - a.timestamp
    · simpa [hc] using ih
    · simp [hc]

/-- C1: when the job resolves to a cached template and the nonce is not a
duplicate, the share is classified valid iff the PoW target of the nonce is
at most the target of the worker's current difficulty
(`workerStats.minDiff || difficulty`); on acceptance exactly one Contribution
is appended to the share window and the share is pushed onto the recent-share
deque, and the template-cache submit is invoked iff the PoW target also meets
the block target. -/
theorem addShare_valid_iff (getPoW : String → Option PoWState)
    (calculateTarget : Rat → Nat) (jobDaa : String → Nat) (now : Nat)
    (submitOk : Bool) (stats : WorkerStats) (shareWindow : List Contribution)
    (minerId address hash : String) (difficulty : Rat) (nonce : Nat)
    (id : String) (st : PoWState) (hpow : getPoW hash = some st)
    (hfresh : stats.recentShares.any (fun s => s.nonce = nonce) = false) :
    ((∃ b, (addShare getPoW calculateTarget jobDaa now submitOk stats
        shareWindow minerId address hash difficulty nonce id).outcome =
          .valid b) ↔
      st.powTarget nonce ≤
        calculateTarget (if stats.minDiff = 0 then difficulty else stats.minDiff)) ∧
    (st.powTarget nonce ≤
        calculateTarget (if stats.minDiff = 0 then difficulty else stats.minDiff) →
      (addShare getPoW calculateTarget jobDaa now submitOk stats shareWindow
          minerId address hash difficulty nonce id).shareWindow =
        shareWindow ++ [⟨address, difficulty, now, minerId, id, jobDaa id⟩] ∧
      (addShare getPoW calculateTarget jobDaa now submitOk stats shareWindow
          minerId address hash difficulty nonce id).stats.recentShares =
        pruneRecent now (stats.recentShares ++
          [⟨now, if stats.minDiff = 0 then difficulty else stats.minDiff,
            nonce⟩]) ∧
      ((addShare getPoW calculateTarget jobDaa now submitOk stats shareWindow
          minerId address hash difficulty nonce id).submitCalled = true ↔
        st.powTarget nonce ≤ st.blockTarget)) := by
  by_cases hv : calculateTarget
      (if stats.minDiff = 0 then difficulty else stats.minDiff) <
      st.powTarget nonce
  · constructor
    · simp [addShare, hfresh, hpow, checkWork, hv, Nat.not_le.mpr hv]
    · intro h
      exact absurd h (Nat.not_le.mpr hv)
  · constructor
    · simp [addShare, hfresh, hpow, checkWork, hv, Nat.not_lt.mp hv]
    · intro _
      refine ⟨?_, ?_, ?_⟩
      · simp [addShare, hfresh, hpow, checkWork, hv]
      · simp [addShare, hfresh, hpow, checkWork, hv]
      · simp [addShare, hfresh, hpow, checkWork, hv]

def worker0 : WorkerStats :=
  { blocksFound := 0
    sharesFound := 0
    staleShares := 0
    invalidShares := 0
    workerName := "rig01"
    startTime := 0
    lastShare := 0
    varDiffStartTime := 0
    varDiffSharesFound := 0
    varDiffWindow := 0
    minDiff := 64
    recentShares := []
    hashrate := 0
    varDiffEnabled := true }

theorem addShare_valid_iff_witness :
    ((fun h => if h = "H" then some (⟨100, fun n => n⟩ : PoWState) else none)
        "H" = some ⟨100, fun n => n⟩) ∧
    (worker0.recentShares.any (fun s => s.nonce = 42) = false) ∧
    (((∃ b, (addShare
        (fun h => if h = "H" then some ⟨100, fun n => n⟩ else none)
        (fun _ => 1000) (fun _ => 7) 5000 false worker0 [] "rig01"
        "kaspa:addrA" "H" 64 42 "1").outcome = .valid b) ↔
      (⟨100, fun n => n⟩ : PoWState).powTarget 42 ≤
        (fun _ => 1000 : Rat → Nat)
          (if worker0.minDiff = 0 then 64 else worker0.minDiff)) ∧
    ((⟨100, fun n => n⟩ : PoWState).powTarget 42 ≤
        (fun _ => 1000 : Rat → Nat)
          (if worker0.minDiff = 0 then 64 else worker0.minDiff) →
      (addShare (fun h => if h = "H" then some ⟨100, fun n => n⟩ else none)
          (fun _ => 1000) (fun _ => 7) 5000 false worker0 [] "rig01"
          "kaspa:addrA" "H" 64 42 "1").shareWindow =
        [] ++ [⟨"kaspa:addrA", 64, 5000, "rig01", "1", 7⟩] ∧
      (addShare (fun h => if h = "H" then some ⟨100, fun n => n⟩ else none)
          (fun _ => 1000) (fun _ => 7) 5000 false worker0 [] "rig01"
          "kaspa:addrA" "H" 64 42 "1").stats.recentShares =
        pruneRecent 5000 (worker0.recentShares ++
          [⟨5000, if worker0.minDiff = 0 then 64 else worker0.minDiff, 42⟩]) ∧
      ((addShare (fun h => if h = "H" then some ⟨100, fun n => n⟩ else none)
          (fun _ => 1000) (fun _ => 7) 5000 false worker0 [] "rig01"
          "kaspa:addrA" "H" 64 42 "1").submitCalled = true ↔
        (⟨100, fun n => n⟩ : PoWState).powTarget 42 ≤
          (⟨100, fun n => n⟩ : PoWState).blockTarget))) :=
  ⟨rfl, rfl,
    addShare_valid_iff (fun h => if h = "H" then some ⟨100, fun n => n⟩ else none)
      (fun _ => 1000) (fun _ => 7) 5000 false worker0 [] "rig01" "kaspa:addrA"
      "H" 64 42 "1" ⟨100, fun n => n⟩ rfl rfl⟩

/-- The duplicate-nonce early return of `addShare` as an equation. -/
theorem addShare_duplicate_eq (getPoW : String → Option PoWState)
    (calculateTarget : Rat → Nat) (jobDaa : String → Nat) (now : Nat)
    (submitOk : Bool) (stats : WorkerStats) (win : List Contribution)
    (minerId address hash : String) (difficulty : Rat) (nonce : Nat)
    (id : String)
    (hdup : stats.recentShares.any (fun s => s.nonce = nonce) = true) :
    addShare getPoW calculateTarget jobDaa now submitOk stats win minerId
      address hash difficulty nonce id = ⟨stats, win, .duplicate, false⟩ := by
  simp [addShare, hdup]

/-! ### Stratum submit response (stratum server handler, submit lines 194-306)

Modelled from the spec: the server module that creates each response is not
under src; per the spec the response starts as `{result: true, error: null}`
(scenario 2 of section 8 shows it returned untouched).  The submit handler
rewrites it only when the job id resolves to no cached hash; the
classification cases inside its catch block are unreachable because
`sharesManager.addShare` is invoked without await and returns instead of
throwing for duplicate, stale and low-difficulty shares. -/

structure StratumResponse where
  result : Bool
  error : Option String
deriving DecidableEq

def stratumSubmitResponse (getHash : String → Option String) (jobId : String) :
    StratumResponse :=
  match getHash jobId with
  | none => ⟨false, some "job-not-found"⟩
  | some _ => ⟨true, none⟩

/-- C4: at a concrete low-difficulty submission (job cached, nonce fresh, PoW
target 100 above the difficulty target 10) the worker's invalidShares counter
increases by exactly one, but the submit response stays
`{result: true, error: null}`: the `low-difficulty-share` error of the claim
is never produced because `addShare` returns instead of throwing. -/
theorem addShare_lowDifficulty_response :
    (addShare (fun _ => some ⟨5, fun _ => 100⟩) (fun _ => 10) (fun _ => 7)
        1000 false worker0 [] "rig01" "kaspa:addrA" "H" 64 42 "1").outcome =
      .invalid ∧
    ((addShare (fun _ => some ⟨5, fun _ => 100⟩) (fun _ => 10) (fun _ => 7)
        1000 false worker0 [] "rig01" "kaspa:addrA" "H" 64 42
        "1").stats.invalidShares = worker0.invalidShares + 1) ∧
    stratumSubmitResponse (fun _ => some "H") "1" = ⟨true, none⟩ ∧
    (⟨true, none⟩ : StratumResponse) ≠ ⟨false, some "low-difficulty-share"⟩ := by
  refine ⟨rfl, rfl, rfl, by decide⟩

/-- C5: submitting the same share twice (same worker, same nonce) within the
recent-share window yields exactly one valid and one duplicate
classification; the duplicate appends no second Contribution, leaves the
worker stats untouched, and the protocol response for a resolvable job stays
`{result: true, error: null}` (no error). -/
theorem addShare_duplicate_second (getPoW : String → Option PoWState)
    (calculateTarget : Rat → Nat) (jobDaa : String → Nat)
    (now1 now2 : Nat) (submitOk1 submitOk2 : Bool) (stats : WorkerStats)
    (win : List Contribution) (minerId address hash : String)
    (difficulty : Rat) (nonce : Nat) (id : String) (st : PoWState)
    (hpow : getPoW hash = some st)
    (hfresh : stats.recentShares.any (fun s => s.nonce = nonce) = false)
    (hvalid : st.powTarget nonce ≤ calculateTarget
      (if stats.minDiff = 0 then difficulty else stats.minDiff))
    (hwindow : now2 - now1 ≤ WINDOW_SIZE) :
    (∃ b, (addShare getPoW calculateTarget jobDaa now1 submitOk1 stats win
        minerId address hash difficulty nonce id).outcome = .valid b) ∧
    (addShare getPoW calculateTarget jobDaa now2 submitOk2
        (addShare getPoW calculateTarget jobDaa now1 submitOk1 stats win
          minerId address hash difficulty nonce id).stats
        (addShare getPoW calculateTarget jobDaa now1 submitOk1 stats win
          minerId address hash difficulty nonce id).shareWindow
        minerId address hash difficulty nonce id) =
      ⟨(addShare getPoW calculateTarget jobDaa now1 submitOk1 stats win
          minerId address hash difficulty nonce id).stats,
        (addShare getPoW calculateTarget jobDaa now1 submitOk1 stats win
          minerId address hash difficulty nonce id).shareWindow,
        .duplicate, false⟩ ∧
    (∀ getHash : String → Option String, getHash id = some hash →
      stratumSubmitResponse getHash id = ⟨true, none⟩) := by
  have hnl : ¬ (calculateTarget
      (if stats.minDiff = 0 then difficulty else stats.minDiff) <
        st.powTarget nonce) := Nat.not_lt.mpr hvalid
  have hr1 : (addShare getPoW calculateTarget jobDaa now1 submitOk1 stats win
      minerId address hash difficulty nonce id).stats.recentShares =
      pruneRecent now1 (stats.recentShares ++
        [⟨now1, if stats.minDiff = 0 then difficulty else stats.minDiff,
          nonce⟩]) := by
    simp [addShare, hfresh, hpow, checkWork, hnl]
  refine ⟨?_, ?_, ?_⟩
  · simp [addShare, hfresh, hpow, checkWork, hnl]
  · have hmem : (⟨now1, if stats.minDiff = 0 then difficulty else stats.minDiff,
        nonce⟩ : RecentShare) ∈
        (addShare getPoW calculateTarget jobDaa now1 submitOk1 stats win
          minerId address hash difficulty nonce id).stats.recentShares := by
      rw [hr1]
      exact self_mem_pruneRecent now1 stats.recentShares _ (by simp)
    have hdup : ((addShare getPoW calculateTarget jobDaa now1 submitOk1 stats
        win minerId address hash difficulty nonce id).stats.recentShares.any
          (fun s => s.nonce = nonce)) = true := by
      rw [List.any_eq_true]
      exact ⟨_, hmem, by simp⟩
    exact addShare_duplicate_eq getPoW calculateTarget jobDaa now2 submitOk2
      _ _ minerId address hash difficulty nonce id hdup
  · intro getHash hjob
    simp [stratumSubmitResponse, hjob]

theorem addShare_duplicate_second_witness :
    ((fun h => if h = "H" then some (⟨100, fun n => n⟩ : PoWState) else none)
        "H" = some ⟨100, fun n => n⟩) ∧
    (worker0.recentShares.any (fun s => s.nonce = 42) = false) ∧
    ((⟨100, fun n => n⟩ : PoWState).powTarget 42 ≤
      (fun _ => 1000 : Rat → Nat)
        (if worker0.minDiff = 0 then 64 else worker0.minDiff)) ∧
    (6000 - 5000 ≤ WINDOW_SIZE) ∧
    ((∃ b, (addShare
        (fun h => if h = "H" then some ⟨100, fun n => n⟩ else none)
        (fun _ => 1000) (fun _ => 7) 5000 false worker0 [] "rig01"
        "kaspa:addrA" "H" 64 42 "1").outcome = .valid b) ∧
    (addShare (fun h => if h = "H" then some ⟨100, fun n => n⟩ else none)
        (fun _ => 1000) (fun _ => 7) 6000 false
        (addShare (fun h => if h = "H" then some ⟨100, fun n => n⟩ else none)
          (fun _ => 1000) (fun _ => 7) 5000 false worker0 [] "rig01"
          "kaspa:addrA" "H" 64 42 "1").stats
        (addShare (fun h => if h = "H" then some ⟨100, fun n => n⟩ else none)
          (fun _ => 1000) (fun _ => 7) 5000 false worker0 [] "rig01"
          "kaspa:addrA" "H" 64 42 "1").shareWindow
        "rig01" "kaspa:addrA" "H" 64 42 "1") =
      ⟨(addShare (fun h => if h = "H" then some ⟨100, fun n => n⟩ else none)
          (fun _ => 1000) (fun _ => 7) 5000 false worker0 [] "rig01"
          "kaspa:addrA" "H" 64 42 "1").stats,
        (addShare (fun h => if h = "H" then some ⟨100, fun n => n⟩ else none)
          (fun _ => 1000) (fun _ => 7) 5000 false worker0 [] "rig01"
          "kaspa:addrA" "H" 64 42 "1").shareWindow,
        .duplicate, false⟩ ∧
    (∀ getHash : String → Option String, getHash "1" = some "H" →
      stratumSubmitResponse getHash "1" = ⟨true, none⟩)) :=
  ⟨rfl, rfl, by decide, by decide,
    addShare_duplicate_second
      (fun h => if h = "H" then some ⟨100, fun n => n⟩ else none)
      (fun _ => 1000) (fun _ => 7) 5000 6000 false false worker0 [] "rig01"
      "kaspa:addrA" "H" 64 42 "1" ⟨100, fun n => n⟩ rfl rfl (by decide)
      (by decide)⟩

/-! ### VarDiff controller (stratum sharesManager, updateVarDiff lines 721-780)

`Math.pow(2, Math.floor(Math.log2(x)))` is `(2 : Rat) ^ (Int.log 2 x)`.  The
rejection-rate check `stats.invalidShares / stats.sharesFound >= 20 / 100`
follows JS float division: `0/0` is NaN (compares false) and `k/0` for
`k > 0` is Infinity (compares true). -/

def OneGH : Rat := 1000000000

def rejectionTableDiff (hashrate dflt : Rat) : Rat :=
  if hashrate ≤ OneGH * 100 then 64
  else if OneGH * 101 ≤ hashrate ∧ hashrate ≤ OneGH * 200 then 128
  else if OneGH * 200 ≤ hashrate ∧ hashrate ≤ OneGH * 400 then 256
  else if OneGH * 401 ≤ hashrate ∧ hashrate ≤ OneGH * 1000 then 512
  else if OneGH * 1001 ≤ hashrate ∧ hashrate ≤ OneGH * 2000 then 1024
  else if OneGH * 2001 ≤ hashrate ∧ hashrate ≤ OneGH * 5000 then 2048
  else if OneGH * 5001 ≤ hashrate ∧ hashrate ≤ OneGH * 8000 then 4096
  else if OneGH * 8001 ≤ hashrate ∧ hashrate ≤ OneGH * 12000 then 8192
  else if OneGH * 12001 ≤ hashrate ∧ hashrate ≤ OneGH * 15000 then 16384
  else if OneGH * 15001 ≤ hashrate ∧ hashrate ≤ OneGH * 21000 then 32768
  else dflt

def highRejectionRate (invalidShares sharesFound : Nat) : Bool :=
  if sharesFound = 0 then decide (invalidShares ≠ 0)
  else decide (20 * sharesFound ≤ 100 * invalidShares)

/-- `SharesManager.updateVarDiff`: optional power-of-two clamp, clamp to
`[stratumMinDiff, stratumMaxDiff]`, then the rejection-rate override; the
stats are rewritten (with the vardiff tracker reset) only when the value
changed.  Returns the updated stats and the previous minDiff. -/
def updateVarDiff (stratumMinDiff stratumMaxDiff : Rat) (stats : WorkerStats)
    (minDiff : Rat) (clamp : Bool) : WorkerStats × Rat :=
  let m := if clamp then (2 : Rat) ^ (Int.log 2 minDiff) else minDiff
  let clamped := max stratumMinDiff (min stratumMaxDiff m)
  let newMinDiff :=
    if highRejectionRate stats.invalidShares stats.sharesFound then
      rejectionTableDiff stats.hashrate clamped
    else clamped
  if newMinDiff ≠ stats.minDiff then
    ({ stats with
        varDiffStartTime := 0
        varDiffWindow := 0
        minDiff := newMinDiff }, stats.minDiff)
  else (stats, stats.minDiff)

def worker6 : WorkerStats :=
  { worker0 with
    invalidShares := 1
    sharesFound := 1
    hashrate := 0
    minDiff := 2048 }

/-- C6 counterexample, both failures of the claim.  Range: a worker with
rejection rate 100% and hashrate 0 on a port configured with
`[stratumMinDiff, stratumMaxDiff] = [128, 4096]` gets difficulty 64 from the
hashrate table, below `stratumMinDiff`, because the override is applied
after the range clamp and bypasses it.  Pow2: with clamping enabled on a
port whose `stratumMinDiff` is 100 (not a power of two), a worker adjusted
to 32 is assigned `max(100, min(4096, 32)) = 100`, which is no power of two,
because the range clamp runs after the pow2 rounding. -/
theorem updateVarDiff_counterexample :
    ((updateVarDiff 128 4096 worker6 2048 false).1.minDiff = 64 ∧
      ¬ ((128 : Rat) ≤ (updateVarDiff 128 4096 worker6 2048 false).1.minDiff)) ∧
    ((updateVarDiff 100 4096 worker0 32 true).1.minDiff = 100 ∧
      ∀ k : Int, (updateVarDiff 100 4096 worker0 32 true).1.minDiff ≠
        (2 : Rat) ^ k) := by
  have h : (updateVarDiff 128 4096 worker6 2048 false).1.minDiff = 64 := by
    norm_num [updateVarDiff, worker6, worker0, highRejectionRate,
      rejectionTableDiff, OneGH, min_def, max_def]
  have hnat : Nat.log 2 32 = 5 :=
    Nat.log_eq_of_pow_le_of_lt_pow (by norm_num) (by norm_num)
  have h100 : (updateVarDiff 100 4096 worker0 32 true).1.minDiff = 100 := by
    norm_num [updateVarDiff, worker0, highRejectionRate, min_def, max_def,
      hnat]
  refine ⟨⟨h, by rw [h]; norm_num⟩, h100, ?_⟩
  intro k hk
  rw [h100] at hk
  have h1 : (2 : Rat) ^ (6 : Int) < 2 ^ k := by
    rw [← hk]
    norm_num
  have h2 : (2 : Rat) ^ k < 2 ^ (7 : Int) := by
    rw [← hk]
    norm_num
  have h6 : (6 : Int) < k :=
    (zpow_lt_zpow_iff_right₀ (by norm_num : (1 : Rat) < 2)).mp h1
  have h7 : k < 7 :=
    (zpow_lt_zpow_iff_right₀ (by norm_num : (1 : Rat) < 2)).mp h2
  omega

/-- C6 amended: when the rejection-rate override does not fire, the newly
assigned difficulty lies within `[stratumMinDiff, stratumMaxDiff]`, and with
pow2 clamping enabled it is a power of two provided the configured bounds
are themselves powers of two. -/
theorem updateVarDiff_clamped (a b : Rat) (stats : WorkerStats) (m : Rat)
    (clamp : Bool) (hab : a ≤ b)
    (hrej : highRejectionRate stats.invalidShares stats.sharesFound = false) :
    (a ≤ (updateVarDiff a b stats m clamp).1.minDiff ∧
      (updateVarDiff a b stats m clamp).1.minDiff ≤ b) ∧
    (clamp = true → (∃ i : Int, a = 2 ^ i) → (∃ j : Int, b = 2 ^ j) →
      ∃ k : Int, (updateVarDiff a b stats m clamp).1.minDiff = 2 ^ k) := by
  have hres : (updateVarDiff a b stats m clamp).1.minDiff =
      max a (min b (if clamp then (2 : Rat) ^ (Int.log 2 m) else m)) := by
    by_cases h : max a (min b (if clamp then (2 : Rat) ^ (Int.log 2 m) else m)) =
        stats.minDiff
    · simp [updateVarDiff, hrej, h]
    · simp [updateVarDiff, hrej, h]
  constructor
  · rw [hres]
    exact ⟨le_max_left a _, max_le hab (min_le_left b _)⟩
  · intro hc ⟨i, ha⟩ ⟨j, hb⟩
    rw [hres, hc, if_pos rfl]
    rcases min_cases b ((2 : Rat) ^ (Int.log 2 m)) with ⟨hmin, _⟩ | ⟨hmin, _⟩ <;>
      rw [hmin] <;>
      [rcases max_cases a b with ⟨hmax, _⟩ | ⟨hmax, _⟩;
        rcases max_cases a ((2 : Rat) ^ (Int.log 2 m)) with ⟨hmax, _⟩ | ⟨hmax, _⟩] <;>
      rw [hmax]
    · exact ⟨i, ha⟩
    · exact ⟨j, hb⟩
    · exact ⟨i, ha⟩
    · exact ⟨Int.log 2 m, rfl⟩

theorem updateVarDiff_clamped_witness :
    ((64 : Rat) ≤ 4096) ∧
    (highRejectionRate worker0.invalidShares worker0.sharesFound = false) ∧
    (((64 : Rat) ≤ (updateVarDiff 64 4096 worker0 100 true).1.minDiff ∧
        (updateVarDiff 64 4096 worker0 100 true).1.minDiff ≤ 4096) ∧
      (true = true → (∃ i : Int, (64 : Rat) = 2 ^ i) →
        (∃ j : Int, (4096 : Rat) = 2 ^ j) →
        ∃ k : Int, (updateVarDiff 64 4096 worker0 100 true).1.minDiff = 2 ^ k)) :=
  ⟨by decide, by decide, updateVarDiff_clamped 64 4096 worker0 100 true
    (by decide) (by decide)⟩

/-! ### Template cache and job registry (stratum templates, register)

One handled `new-block-template` event inserts the finalized header hash into
the bounded template map and derives a job id for it, evicting the oldest
template together with the oldest job when the cache exceeds its size.  The
`Jobs` class itself is not under src; modelled from the spec: ids come from a
process-wide counter rendered as text, jobs expire in insertion order
(`expireNext`), in lockstep with the cache.  Templates are abstracted to
their daaScore payload; both maps are lists in insertion order (JS `Map`
preserves it, and `templates.entries().next().value[0]` is the oldest key). -/

structure TemplatesState where
  templates : List (String × Nat)
  jobs : List (String × String)
  nextJobNumber : Nat
deriving DecidableEq

def registerTemplate (cacheSize : Nat) (st : TemplatesState) (headerHash : String)
    (daaScore : Nat) : TemplatesState :=
  if st.templates.any (fun t => t.1 = headerHash) then st
  else
    let templates := st.templates ++ [(headerHash, daaScore)]
    let jobs := st.jobs ++ [(toString st.nextJobNumber, headerHash)]
    if cacheSize < templates.length then
      ⟨templates.tail, jobs.tail, st.nextJobNumber + 1⟩
    else
      ⟨templates, jobs, st.nextJobNumber + 1⟩

inductive TemplatesReachable (cacheSize : Nat) : TemplatesState → Prop where
  | init : TemplatesReachable cacheSize ⟨[], [], 0⟩
  | step (st : TemplatesState) (headerHash : String) (daaScore : Nat) :
      TemplatesReachable cacheSize st →
      TemplatesReachable cacheSize (registerTemplate cacheSize st headerHash daaScore)

/-- C8: in every reachable state the job registry and the template cache hold
corresponding key sequences: the hashes of the jobs, in insertion order, are
exactly the keys of the template cache, so every job id resolves to a header
hash whose template is cached; pairs are created together and evicted
together. -/
theorem templates_jobs_lockstep (cacheSize : Nat) (st : TemplatesState)
    (h : TemplatesReachable cacheSize st) :
    st.jobs.map Prod.snd = st.templates.map Prod.fst ∧
    ∀ j ∈ st.jobs, j.2 ∈ st.templates.map Prod.fst := by
  induction h with
  | init => simp
  | step st headerHash daaScore _ ih =>
    have key : (registerTemplate cacheSize st headerHash daaScore).jobs.map
        Prod.snd =
        (registerTemplate cacheSize st headerHash daaScore).templates.map
          Prod.fst := by
      unfold registerTemplate
      by_cases hmem : (st.templates.any (fun t => t.1 = headerHash)) = true
      · rw [if_pos hmem]
        exact ih.1
      · rw [if_neg hmem]
        by_cases hover : cacheSize <
            (st.templates ++ [(headerHash, daaScore)]).length
        · rw [if_pos hover]
          show ((st.jobs ++ [(toString st.nextJobNumber, headerHash)]).tail).map
              Prod.snd =
            ((st.templates ++ [(headerHash, daaScore)]).tail).map Prod.fst
          rw [List.map_tail, List.map_tail, List.map_append, List.map_append,
            ih.1]
          rfl
        · rw [if_neg hover]
          show (st.jobs ++ [(toString st.nextJobNumber, headerHash)]).map
              Prod.snd =
            (st.templates ++ [(headerHash, daaScore)]).map Prod.fst
          rw [List.map_append, List.map_append, ih.1]
          rfl
    refine ⟨key, fun j hj => ?_⟩
    rw [← key]
    exact List.mem_map_of_mem Prod.snd hj

theorem templates_jobs_lockstep_witness :
    TemplatesReachable 2
      (registerTemplate 2 (registerTemplate 2 (registerTemplate 2 ⟨[], [], 0⟩
        "hashA" 11) "hashB" 12) "hashC" 13) ∧
    ((registerTemplate 2 (registerTemplate 2 (registerTemplate 2 ⟨[], [], 0⟩
        "hashA" 11) "hashB" 12) "hashC" 13).jobs.map Prod.snd =
      (registerTemplate 2 (registerTemplate 2 (registerTemplate 2 ⟨[], [], 0⟩
        "hashA" 11) "hashB" 12) "hashC" 13).templates.map Prod.fst ∧
      ∀ j ∈ (registerTemplate 2 (registerTemplate 2 (registerTemplate 2
          ⟨[], [], 0⟩ "hashA" 11) "hashB" 12) "hashC" 13).jobs,
        j.2 ∈ (registerTemplate 2 (registerTemplate 2 (registerTemplate 2
          ⟨[], [], 0⟩ "hashA" 11) "hashB" 12) "hashC" 13).templates.map
            Prod.fst) :=
  ⟨TemplatesReachable.step _ "hashC" 13 (TemplatesReachable.step _ "hashB" 12
      (TemplatesReachable.step _ "hashA" 11 TemplatesReachable.init)),
    templates_jobs_lockstep 2 _
      (TemplatesReachable.step _ "hashC" 13 (TemplatesReachable.step _ "hashB" 12
        (TemplatesReachable.step _ "hashA" 11 TemplatesReachable.init)))⟩

/-! ### Share window drain (stratum sharesManager,
getSharesSinceLastAllocation lines 489-500)

The while loop shifts contributions from the front of the window as long as
`Jobs.getDaaScoreFromJobId(front.jobId) <= daaScore`.  The job-id to DAA
mapping is the oracle `jobDaa` (the `Jobs` statics are not under src;
modelled from the spec as a lookup populated at job creation). -/

def getSharesSinceLastAllocation (jobDaa : String → Nat) (daaScore : Nat) :
    List Contribution → List Contribution × List Contribution
  | [] => ([], [])
  | c :: rest =>
    if jobDaa c.jobId ≤ daaScore then
      let r := getSharesSinceLastAllocation jobDaa daaScore rest
      (c :: r.1, r.2)
    else ([], c :: rest)

/-- The drained prefix and the kept remainder partition the window. -/
theorem drain_partition (jobDaa : String → Nat) (d : Nat)
    (w : List Contribution) :
    (getSharesSinceLastAllocation jobDaa d w).1 ++
      (getSharesSinceLastAllocation jobDaa d w).2 = w := by
  induction w with
  | nil => simp [getSharesSinceLastAllocation]
  | cons c rest ih =>
    by_cases h : jobDaa c.jobId ≤ d
    · simp [getSharesSinceLastAllocation, h, ih]
    · simp [getSharesSinceLastAllocation, h]


/-- On a monotone window everything the drain keeps has DAA score above the
bound. -/
theorem drain_kept_gt (jobDaa : String → Nat) (d : Nat) (w : List Contribution)
    (hs : w.Pairwise (fun x y => jobDaa x.jobId ≤ jobDaa y.jobId)) :
    ∀ c ∈ (getSharesSinceLastAllocation jobDaa d w).2, d < jobDaa c.jobId := by
  induction hs with
  | nil => simp [getSharesSinceLastAllocation]
  | @cons c0 rest hrel hpair ih =>
    by_cases h : jobDaa c0.jobId ≤ d
    · intro c hc
      exact ih c (by simpa [getSharesSinceLastAllocation, h] using hc)
    · intro c hc
      simp only [getSharesSinceLastAllocation, if_neg h] at hc
      rcases List.mem_cons.mp hc with hce | hmem
      · subst hce
        exact Nat.lt_of_not_le h
      · exact Nat.lt_of_not_le fun hle => h (le_trans (hrel c hmem) hle)

/-- On a monotone window the drained prefix is exactly the filter of the
contributions at or below the bound. -/
theorem drain_eq_filter (jobDaa : String → Nat) (d : Nat)
    (w : List Contribution)
    (hs : w.Pairwise (fun x y => jobDaa x.jobId ≤ jobDaa y.jobId)) :
    (getSharesSinceLastAllocation jobDaa d w).1 =
      w.filter (fun c => jobDaa c.jobId ≤ d) := by
  induction hs with
  | nil => simp [getSharesSinceLastAllocation]
  | @cons c0 rest hrel hpair ih =>
    by_cases h : jobDaa c0.jobId ≤ d
    · simp only [getSharesSinceLastAllocation, if_pos h]
      rw [List.filter_cons_of_pos (by simpa using h)]
      exact congrArg (c0 :: ·) ih
    · simp only [getSharesSinceLastAllocation, if_neg h]
      rw [List.filter_cons_of_neg (by simpa using h)]
      rw [List.filter_eq_nil_iff.mpr (fun x hx => by
        simpa using fun hle => h (le_trans (hrel x hx) hle))]

theorem drain_fst_takeWhile (jobDaa : String → Nat) (d : Nat)
    (w : List Contribution) :
    (getSharesSinceLastAllocation jobDaa d w).1 =
      w.takeWhile (fun c => jobDaa c.jobId ≤ d) := by
  induction w with
  | nil => simp [getSharesSinceLastAllocation]
  | cons c rest ih =>
    by_cases h : jobDaa c.jobId ≤ d
    · simp [getSharesSinceLastAllocation, List.takeWhile_cons, h, ih]
    · simp [getSharesSinceLastAllocation, List.takeWhile_cons, h]

theorem drain_snd_dropWhile (jobDaa : String → Nat) (d : Nat)
    (w : List Contribution) :
    (getSharesSinceLastAllocation jobDaa d w).2 =
      w.dropWhile (fun c => jobDaa c.jobId ≤ d) := by
  induction w with
  | nil => simp [getSharesSinceLastAllocation]
  | cons c rest ih =>
    by_cases h : jobDaa c.jobId ≤ d
    · simp [getSharesSinceLastAllocation, List.dropWhile_cons, h, ih]
    · simp [getSharesSinceLastAllocation, List.dropWhile_cons, h]

/-- C9 counterexample: the share window is not kept sorted by DAA score
(shares for an older cached job can arrive after shares for a newer one).
On the window with job DAA scores `[100, 105, 100]` and mined-block DAA
score 102 the while loop drains only the front prefix `[100]`, not exactly
the contributions with score at most 102: the trailing score-100
contribution stays behind the 105 one; and the next allocation (bound 105)
then drains that contribution, whose score 100 is at most the earlier
bound, so the DAA score 100 is revisited by a later event. -/
theorem drain_out_of_order_counterexample :
    (getSharesSinceLastAllocation
        (fun j => if j = "1" then 100 else if j = "2" then 105 else 100) 102
        [⟨"addrA", 64, 0, "rig01", "1", 100⟩,
          ⟨"addrA", 64, 0, "rig01", "2", 105⟩,
          ⟨"addrB", 64, 0, "rig02", "3", 100⟩]).1 =
      [⟨"addrA", 64, 0, "rig01", "1", 100⟩] ∧
    ([⟨"addrA", 64, 0, "rig01", "1", 100⟩,
        ⟨"addrA", 64, 0, "rig01", "2", 105⟩,
        ⟨"addrB", 64, 0, "rig02", "3", 100⟩] :
      List Contribution).filter (fun c =>
        (fun j => if j = "1" then 100 else if j = "2" then 105 else 100)
          c.jobId ≤ 102) =
      [⟨"addrA", 64, 0, "rig01", "1", 100⟩,
        ⟨"addrB", 64, 0, "rig02", "3", 100⟩] ∧
    (getSharesSinceLastAllocation
        (fun j => if j = "1" then 100 else if j = "2" then 105 else 100) 102
        [⟨"addrA", 64, 0, "rig01", "1", 100⟩,
          ⟨"addrA", 64, 0, "rig01", "2", 105⟩,
          ⟨"addrB", 64, 0, "rig02", "3", 100⟩]).1 ≠
      [⟨"addrA", 64, 0, "rig01", "1", 100⟩,
        ⟨"addrB", 64, 0, "rig02", "3", 100⟩] ∧
    (⟨"addrB", 64, 0, "rig02", "3", 100⟩ : Contribution) ∈
      (getSharesSinceLastAllocation
        (fun j => if j = "1" then 100 else if j = "2" then 105 else 100) 105
        (getSharesSinceLastAllocation
          (fun j => if j = "1" then 100 else if j = "2" then 105 else 100) 102
          [⟨"addrA", 64, 0, "rig01", "1", 100⟩,
            ⟨"addrA", 64, 0, "rig01", "2", 105⟩,
            ⟨"addrB", 64, 0, "rig02", "3", 100⟩]).2).1 ∧
    ((fun j => if j = "1" then 100 else if j = "2" then 105 else 100 : String → Nat)
        "3") ≤ 102 := by
  refine ⟨by decide, by decide, by decide, by decide, by decide⟩

/-- C9 amended: one allocation drain removes from the front of the window
the maximal prefix of contributions whose DAA score is at most the
mined-block DAA score, in order (the drained prefix and the kept remainder
reassemble the window); when the window is monotone by job DAA score this
prefix is exactly the set of contributions at or below the bound, everything
kept is strictly above it, and whatever a later drain with any bound removes
from the remainder is also strictly above it, so no drained DAA score is
revisited. -/
theorem drain_front_prefix_by_daa (jobDaa : String → Nat) (d : Nat)
    (w : List Contribution) :
    (getSharesSinceLastAllocation jobDaa d w).1 =
      w.takeWhile (fun c => jobDaa c.jobId ≤ d) ∧
    (getSharesSinceLastAllocation jobDaa d w).2 =
      w.dropWhile (fun c => jobDaa c.jobId ≤ d) ∧
    (getSharesSinceLastAllocation jobDaa d w).1 ++
      (getSharesSinceLastAllocation jobDaa d w).2 = w ∧
    (w.Pairwise (fun x y => jobDaa x.jobId ≤ jobDaa y.jobId) →
      (getSharesSinceLastAllocation jobDaa d w).1 =
        w.filter (fun c => jobDaa c.jobId ≤ d) ∧
      (∀ c ∈ (getSharesSinceLastAllocation jobDaa d w).2,
        d < jobDaa c.jobId) ∧
      (∀ e : Nat, ∀ c ∈ (getSharesSinceLastAllocation jobDaa e
          (getSharesSinceLastAllocation jobDaa d w).2).1,
        d < jobDaa c.jobId)) := by
  refine ⟨drain_fst_takeWhile jobDaa d w, drain_snd_dropWhile jobDaa d w,
    drain_partition jobDaa d w, fun hsorted => ?_⟩
  refine ⟨drain_eq_filter jobDaa d w hsorted, drain_kept_gt jobDaa d w hsorted,
    fun e c hc => ?_⟩
  have hc2 : c ∈ (getSharesSinceLastAllocation jobDaa d w).2 := by
    have hpart := drain_partition jobDaa e
      (getSharesSinceLastAllocation jobDaa d w).2
    rw [← hpart]
    exact List.mem_append_left _ hc
  exact drain_kept_gt jobDaa d w hsorted c hc2

/-! ### Persistence gateway (pool database, addBalance)

`Database.addBalance` runs one transaction: read-modify-write of the
`miners_balance` row keyed by the string `minerId_wallet` (the upsert
rewrites only the `balance` and `nacho_rebate_kas` columns on conflict), then
read-modify-write of the `wallet_total` row keyed by the wallet, adding only
`balance` there.  Both tables are lists of rows; `find?` and the upserts act
on the first match, as the unique SQL keys do.  A failed statement rolls the
whole transaction back. -/

structure MinersBalanceRow where
  id : String
  miner_id : String
  wallet : String
  balance : Int
  nacho_rebate_kas : Int
deriving DecidableEq

structure DbState where
  miners_balance : List MinersBalanceRow
  wallet_total : List (String × Int)
deriving DecidableEq

def mkKey (minerId wallet : String) : String := minerId ++ "_" ++ wallet

def findRow (rows : List MinersBalanceRow) (key : String) :
    Option MinersBalanceRow :=
  rows.find? (fun r => r.id = key)

def rowBalance (st : DbState) (key : String) : Int :=
  ((findRow st.miners_balance key).map (·.balance)).getD 0

def rowRebate (st : DbState) (key : String) : Int :=
  ((findRow st.miners_balance key).map (·.nacho_rebate_kas)).getD 0

def walletTotal (st : DbState) (wallet : String) : Int :=
  ((st.wallet_total.find? (fun p => p.1 = wallet)).map (·.2)).getD 0

def upsertRow (rows : List MinersBalanceRow) (key minerId wallet : String)
    (bal reb : Int) : List MinersBalanceRow :=
  match rows with
  | [] => [⟨key, minerId, wallet, bal, reb⟩]
  | r :: rest =>
    if r.id = key then
      { r with balance := bal, nacho_rebate_kas := reb } :: rest
    else
      r :: upsertRow rest key minerId wallet bal reb

def upsertTotal (ts : List (String × Int)) (wallet : String) (t : Int) :
    List (String × Int) :=
  match ts with
  | [] => [(wallet, t)]
  | p :: rest =>
    if p.1 = wallet then (p.1, t) :: rest
    else p :: upsertTotal rest wallet t

def addBalance (st : DbState) (minerId wallet : String)
    (balance nacho_rebate_kas : Int) : DbState :=
  let key := mkKey minerId wallet
  let minerBalance := rowBalance st key + balance
  let minerNachoKas := rowRebate st key + nacho_rebate_kas
  let newTotal := walletTotal st wallet + balance
  ⟨upsertRow st.miners_balance key minerId wallet minerBalance minerNachoKas,
    upsertTotal st.wallet_total wallet newTotal⟩

/-- One transaction: any failed statement rolls both tables back. -/
def addBalanceTx (failed : Bool) (st : DbState) (minerId wallet : String)
    (balance nacho : Int) : DbState :=
  if failed then st else addBalance st minerId wallet balance nacho

def NoUnderscore (s : String) : Prop := ('_' : Char) ∉ s.data

def RowsWellFormed (st : DbState) : Prop :=
  ∀ r ∈ st.miners_balance,
    r.id = mkKey r.miner_id r.wallet ∧ NoUnderscore r.wallet

def sumBalances (st : DbState) (wallet : String) : Int :=
  ((st.miners_balance.filter (fun r => r.wallet = wallet)).map (·.balance)).sum

/-- The per-wallet aggregate equals the sum of that wallet's rows. -/
def BalanceInv (st : DbState) : Prop :=
  ∀ w : String, walletTotal st w = sumBalances st w

theorem sep_snoc_inj (x y : List Char) :
    ∀ x' y' : List Char, ('_' : Char) ∉ x → ('_' : Char) ∉ x' →
      x ++ '_' :: y = x' ++ '_' :: y' → x = x' ∧ y = y' := by
  induction x with
  | nil =>
    intro x' y' _ hx' h
    cases x' with
    | nil => simpa using h
    | cons b u =>
      simp only [List.nil_append, List.cons_append, List.cons.injEq] at h
      exact absurd (h.1 ▸ List.mem_cons_self b u) hx'
  | cons a t ih =>
    intro x' y' hx hx' h
    cases x' with
    | nil =>
      simp only [List.cons_append, List.nil_append, List.cons.injEq] at h
      exact absurd (h.1 ▸ List.mem_cons_self a t) hx
    | cons b u =>
      simp only [List.cons_append, List.cons.injEq] at h
      have ht := ih u y' (fun hm => hx (List.mem_cons_of_mem a hm))
        (fun hm => hx' (h.1 ▸ List.mem_cons_of_mem b hm)) h.2
      exact ⟨by rw [h.1, ht.1], ht.2⟩

theorem mkKey_inj (m w m' w' : String) (hw : NoUnderscore w)
    (hw' : NoUnderscore w') (h : mkKey m w = mkKey m' w') :
    m = m' ∧ w = w' := by
  have hd : m.data ++ '_' :: w.data = m'.data ++ '_' :: w'.data := by
    have := congrArg String.data h
    simpa [mkKey, String.data_append] using this
  have hrev : w.data.reverse ++ '_' :: m.data.reverse =
      w'.data.reverse ++ '_' :: m'.data.reverse := by
    have := congrArg List.reverse hd
    simpa [List.reverse_append] using this
  have hres := sep_snoc_inj w.data.reverse m.data.reverse w'.data.reverse
    m'.data.reverse (fun hm => hw (List.mem_reverse.mp hm))
    (fun hm => hw' (List.mem_reverse.mp hm)) hrev
  refine ⟨String.ext ?_, String.ext ?_⟩
  · have := congrArg List.reverse hres.2
    simpa using this
  · have := congrArg List.reverse hres.1
    simpa using this

def sumFor (rows : List MinersBalanceRow) (w : String) : Int :=
  ((rows.filter (fun r => r.wallet = w)).map (·.balance)).sum

theorem sumFor_cons (r : MinersBalanceRow) (rows : List MinersBalanceRow)
    (w : String) :
    sumFor (r :: rows) w =
      (if r.wallet = w then r.balance else 0) + sumFor rows w := by
  by_cases h : r.wallet = w
  · simp [sumFor, List.filter_cons, h]
  · simp [sumFor, List.filter_cons, h]

theorem sumFor_upsert_none (rows : List MinersBalanceRow)
    (key mid w : String) (v reb : Int) (w' : String)
    (h : findRow rows key = none) :
    sumFor (upsertRow rows key mid w v reb) w' =
      sumFor rows w' + (if w = w' then v else 0) := by
  induction rows with
  | nil =>
    by_cases hw : w = w' <;> simp [upsertRow, sumFor, List.filter_cons, hw]
  | cons r rest ih =>
    rw [findRow, List.find?_eq_none] at h
    have hr : ¬ (r.id = key) := by
      simpa using h r (List.mem_cons_self r rest)
    have h' : findRow rest key = none := by
      rw [findRow, List.find?_eq_none]
      exact fun x hx => h x (List.mem_cons_of_mem r hx)
    rw [show upsertRow (r :: rest) key mid w v reb =
        r :: upsertRow rest key mid w v reb by simp [upsertRow, hr]]
    rw [sumFor_cons, sumFor_cons, ih h']
    ring

theorem sumFor_upsert_some (rows : List MinersBalanceRow)
    (key mid w : String) (v reb : Int) (w' : String) (r0 : MinersBalanceRow)
    (h : findRow rows key = some r0) :
    sumFor (upsertRow rows key mid w v reb) w' =
      sumFor rows w' + (if r0.wallet = w' then v - r0.balance else 0) := by
  induction rows with
  | nil => simp [findRow] at h
  | cons r rest ih =>
    by_cases hr : r.id = key
    · have hr0 : r = r0 := by
        rw [findRow, List.find?_cons_of_pos _ (by simpa using hr)] at h
        exact Option.some.inj h
      subst hr0
      rw [show upsertRow (r :: rest) key mid w v reb =
          { r with balance := v, nacho_rebate_kas := reb } :: rest by
            simp [upsertRow, hr]]
      rw [sumFor_cons, sumFor_cons]
      by_cases hw : r.wallet = w'
      · simp [hw]
        ring
      · simp [hw]
    · have h' : findRow rest key = some r0 := by
        rw [findRow, List.find?_cons_of_neg _ (by simpa using hr)] at h
        exact h
      rw [show upsertRow (r :: rest) key mid w v reb =
          r :: upsertRow rest key mid w v reb by simp [upsertRow, hr]]
      rw [sumFor_cons, sumFor_cons, ih h']
      ring

theorem find_upsertTotal_self (ts : List (String × Int)) (w : String) (t : Int) :
    ((upsertTotal ts w t).find? (fun p => p.1 = w)).map (fun p => p.2) =
      some t := by
  induction ts with
  | nil => simp [upsertTotal]
  | cons p rest ih =>
    by_cases h : p.1 = w
    · simp [upsertTotal, h]
    · simp [upsertTotal, h, ih]

theorem find_upsertTotal_other (ts : List (String × Int)) (w : String)
    (t : Int) (w' : String) (hne : ¬ (w = w')) :
    (upsertTotal ts w t).find? (fun p => p.1 = w') =
      ts.find? (fun p => p.1 = w') := by
  induction ts with
  | nil => simp [upsertTotal, hne]
  | cons p rest ih =>
    have hne2 : ¬ (w' = w) := fun hc => hne hc.symm
    by_cases h : p.1 = w
    · have hp : ¬ (p.1 = w') := fun hc => hne (h ▸ hc)
      simp [upsertTotal, h, hp, hne, hne2]
    · by_cases hp : p.1 = w'
      · simp [upsertTotal, h, hp, hne, hne2]
      · simp [upsertTotal, h, hp, hne, hne2, ih]

theorem findRow_upsert_self (rows : List MinersBalanceRow)
    (key mid w : String) (v reb : Int) :
    ∃ r, findRow (upsertRow rows key mid w v reb) key = some r ∧
      r.balance = v ∧ r.nacho_rebate_kas = reb := by
  induction rows with
  | nil => exact ⟨⟨key, mid, w, v, reb⟩, by simp [upsertRow, findRow], rfl, rfl⟩
  | cons r rest ih =>
    by_cases h : r.id = key
    · exact ⟨{ r with balance := v, nacho_rebate_kas := reb },
        by simp [upsertRow, findRow, h], rfl, rfl⟩
    · obtain ⟨r1, hr1, hb, hn⟩ := ih
      refine ⟨r1, ?_, hb, hn⟩
      rw [show upsertRow (r :: rest) key mid w v reb =
          r :: upsertRow rest key mid w v reb by simp [upsertRow, h]]
      rw [findRow, List.find?_cons_of_neg _ (by simpa using h)]
      exact hr1

theorem upsertRow_wf (rows : List MinersBalanceRow)
    (key mid w : String) (v reb : Int)
    (hrows : ∀ r ∈ rows, r.id = mkKey r.miner_id r.wallet ∧ NoUnderscore r.wallet)
    (hk : key = mkKey mid w) (hw : NoUnderscore w) :
    ∀ r ∈ upsertRow rows key mid w v reb,
      r.id = mkKey r.miner_id r.wallet ∧ NoUnderscore r.wallet := by
  induction rows with
  | nil =>
    intro r hr
    simp only [upsertRow, List.mem_singleton] at hr
    subst hr
    exact ⟨hk, hw⟩
  | cons r0 rest ih =>
    intro r hr
    by_cases h : r0.id = key
    · rw [show upsertRow (r0 :: rest) key mid w v reb =
          { r0 with balance := v, nacho_rebate_kas := reb } :: rest by
            simp [upsertRow, h]] at hr
      rcases List.mem_cons.mp hr with hre | hmem
      · subst hre
        exact hrows r0 (List.mem_cons_self r0 rest)
      · exact hrows r (List.mem_cons_of_mem r0 hmem)
    · rw [show upsertRow (r0 :: rest) key mid w v reb =
          r0 :: upsertRow rest key mid w v reb by simp [upsertRow, h]] at hr
      rcases List.mem_cons.mp hr with hre | hmem
      · exact hre ▸ hrows r0 (List.mem_cons_self r0 rest)
      · exact ih (fun x hx => hrows x (List.mem_cons_of_mem r0 hx)) r hmem

/-- C10: `Database.addBalance` adds `balance` to the `(minerId, wallet)` row
balance and `rebate` to its rebate column, adds only `balance` to the
per-wallet total, rolls back to the unchanged state when the transaction
fails, preserves row well-formedness, and preserves the invariant that every
wallet total equals the sum of that wallet's row balances.  Well-formedness
asks that row ids are the `minerId_wallet` keys and wallets contain no
underscore, which makes the composite key injective. -/
theorem addBalance_preserves_wallet_invariant (st : DbState)
    (minerId wallet : String) (balance nacho : Int)
    (hwf : RowsWellFormed st) (hw : NoUnderscore wallet)
    (hinv : BalanceInv st) :
    rowBalance (addBalance st minerId wallet balance nacho)
        (mkKey minerId wallet) =
      rowBalance st (mkKey minerId wallet) + balance ∧
    rowRebate (addBalance st minerId wallet balance nacho)
        (mkKey minerId wallet) =
      rowRebate st (mkKey minerId wallet) + nacho ∧
    walletTotal (addBalance st minerId wallet balance nacho) wallet =
      walletTotal st wallet + balance ∧
    BalanceInv (addBalance st minerId wallet balance nacho) ∧
    RowsWellFormed (addBalance st minerId wallet balance nacho) ∧
    addBalanceTx true st minerId wallet balance nacho = st := by
  obtain ⟨r1, hfind1, hb1, hn1⟩ := findRow_upsert_self st.miners_balance
    (mkKey minerId wallet) minerId wallet
    (rowBalance st (mkKey minerId wallet) + balance)
    (rowRebate st (mkKey minerId wallet) + nacho)
  have hsum : ∀ w' : String,
      sumBalances (addBalance st minerId wallet balance nacho) w' =
        sumBalances st w' + (if wallet = w' then balance else 0) := by
    intro w'
    show sumFor (upsertRow st.miners_balance (mkKey minerId wallet) minerId
        wallet (rowBalance st (mkKey minerId wallet) + balance)
        (rowRebate st (mkKey minerId wallet) + nacho)) w' =
      sumFor st.miners_balance w' + (if wallet = w' then balance else 0)
    rcases hcase : findRow st.miners_balance (mkKey minerId wallet) with _ | r0
    · rw [sumFor_upsert_none _ _ _ _ _ _ _ hcase]
      have h0 : rowBalance st (mkKey minerId wallet) = 0 := by
        rw [rowBalance, hcase]
        rfl
      rw [h0]
      by_cases hww : wallet = w' <;> simp [hww]
    · have h2 : List.find? (fun r => decide (r.id = mkKey minerId wallet))
          st.miners_balance = some r0 := hcase
      have hmem0 : r0 ∈ st.miners_balance := List.mem_of_find?_eq_some h2
      have hp := List.find?_some h2
      have hid0 : r0.id = mkKey minerId wallet := by simpa using hp
      obtain ⟨hwf0, hnu0⟩ := hwf r0 hmem0
      have hwal : r0.wallet = wallet :=
        (mkKey_inj r0.miner_id r0.wallet minerId wallet hnu0 hw
          (hwf0 ▸ hid0)).2
      have hb0 : rowBalance st (mkKey minerId wallet) = r0.balance := by
        rw [rowBalance, hcase]
        rfl
      rw [sumFor_upsert_some _ _ _ _ _ _ _ _ hcase, hwal, hb0]
      by_cases hww : wallet = w' <;> simp [hww]
  refine ⟨?_, ?_, ?_, ?_, ?_, rfl⟩
  · show ((findRow (upsertRow st.miners_balance (mkKey minerId wallet) minerId
        wallet (rowBalance st (mkKey minerId wallet) + balance)
        (rowRebate st (mkKey minerId wallet) + nacho))
        (mkKey minerId wallet)).map (·.balance)).getD 0 =
      rowBalance st (mkKey minerId wallet) + balance
    rw [hfind1]
    simpa using hb1
  · show ((findRow (upsertRow st.miners_balance (mkKey minerId wallet) minerId
        wallet (rowBalance st (mkKey minerId wallet) + balance)
        (rowRebate st (mkKey minerId wallet) + nacho))
        (mkKey minerId wallet)).map (·.nacho_rebate_kas)).getD 0 =
      rowRebate st (mkKey minerId wallet) + nacho
    rw [hfind1]
    simpa using hn1
  · show (((upsertTotal st.wallet_total wallet
        (walletTotal st wallet + balance)).find?
        (fun p => p.1 = wallet)).map (fun p => p.2)).getD 0 =
      walletTotal st wallet + balance
    rw [find_upsertTotal_self]
    rfl
  · intro w'
    by_cases hww : w' = wallet
    · subst hww
      have htot : walletTotal (addBalance st minerId w' balance nacho) w' =
          walletTotal st w' + balance := by
        show (((upsertTotal st.wallet_total w'
            (walletTotal st w' + balance)).find?
            (fun p => p.1 = w')).map (fun p => p.2)).getD 0 =
          walletTotal st w' + balance
        rw [find_upsertTotal_self]
        rfl
      rw [htot, hsum w', if_pos rfl, hinv w']
    · have hne : ¬ (wallet = w') := fun hc => hww hc.symm
      have htot : walletTotal (addBalance st minerId wallet balance nacho) w' =
          walletTotal st w' := by
        show (((upsertTotal st.wallet_total wallet
            (walletTotal st wallet + balance)).find?
            (fun p => p.1 = w')).map (fun p => p.2)).getD 0 =
          walletTotal st w'
        rw [find_upsertTotal_other _ _ _ _ hne]
        rfl
      rw [htot, hsum w', if_neg hne, hinv w']
      ring
  · intro r hr
    exact upsertRow_wf st.miners_balance (mkKey minerId wallet) minerId wallet
      (rowBalance st (mkKey minerId wallet) + balance)
      (rowRebate st (mkKey minerId wallet) + nacho)
      (fun x hx => hwf x hx) rfl hw r hr

theorem addBalance_preserves_wallet_invariant_witness :
    RowsWellFormed ⟨[], []⟩ ∧ NoUnderscore "kaspa:qz1" ∧ BalanceInv ⟨[], []⟩ ∧
    (rowBalance (addBalance ⟨[], []⟩ "rig01" "kaspa:qz1" 7 2)
        (mkKey "rig01" "kaspa:qz1") =
      rowBalance ⟨[], []⟩ (mkKey "rig01" "kaspa:qz1") + 7 ∧
    rowRebate (addBalance ⟨[], []⟩ "rig01" "kaspa:qz1" 7 2)
        (mkKey "rig01" "kaspa:qz1") =
      rowRebate ⟨[], []⟩ (mkKey "rig01" "kaspa:qz1") + 2 ∧
    walletTotal (addBalance ⟨[], []⟩ "rig01" "kaspa:qz1" 7 2) "kaspa:qz1" =
      walletTotal ⟨[], []⟩ "kaspa:qz1" + 7 ∧
    BalanceInv (addBalance ⟨[], []⟩ "rig01" "kaspa:qz1" 7 2) ∧
    RowsWellFormed (addBalance ⟨[], []⟩ "rig01" "kaspa:qz1" 7 2) ∧
    addBalanceTx true ⟨[], []⟩ "rig01" "kaspa:qz1" 7 2 = ⟨[], []⟩) :=
  ⟨fun r hr => absurd hr (List.not_mem_nil r),
    (by decide : ('_' : Char) ∉ "kaspa:qz1".data), fun _ => rfl,
    addBalance_preserves_wallet_invariant ⟨[], []⟩ "rig01" "kaspa:qz1" 7 2
      (fun r hr => absurd hr (List.not_mem_nil r))
      (by decide : ('_' : Char) ∉ "kaspa:qz1".data) (fun _ => rfl)⟩
